import Mathlib

set_option linter.unusedVariables false

namespace QRules

/-- Modelled from the spec: decay trees underlying isobar topologies (the
`qrules.topology` module is absent from the repository snapshot; only its
callers are present).  Each internal node is a 1-in/2-out interaction vertex
(spec section 3); node labels record the deterministic order in which vertices
are attached below the initial-state edge (spec section 4.1, identifier
assignment by a fixed traversal from the initial edge). -/
inductive ITree where
  | leaf : ITree
  | node (id : Nat) (left : ITree) (right : ITree) : ITree
deriving DecidableEq

/-- Injective linearization of a tree, used as the canonical-form key for
deduplication (spec section 4.1: canonical form of the child groups). -/
def ITree.enc : ITree → List Nat
  | .leaf => [0]
  | .node i l r => 1 :: (i + 2) :: (ITree.enc l ++ ITree.enc r)

/-- Lexicographic comparison on linearization keys. -/
def lexLE : List Nat → List Nat → Bool
  | [], _ => true
  | _ :: _, [] => false
  | a :: as, b :: bs => if a < b then true else if b < a then false else lexLE as bs

/-- Canonical form of a decay tree: the two child subtrees of every node are
put in a fixed order, so that topologies differing only in the (physically
meaningless) left/right order of the decay products are identified
(spec section 4.1: groups are unordered). -/
def ITree.norm : ITree → ITree
  | .leaf => .leaf
  | .node i l r =>
      let ln := ITree.norm l
      let rn := ITree.norm r
      if lexLE ln.enc rn.enc then .node i ln rn else .node i rn ln

/-- All ways to refine one final-state slot of a tree into a new binary decay
vertex carrying the next node id (spec section 4.1: recursive binary
decomposition). -/
def insertNode (i : Nat) : ITree → List ITree
  | .leaf => [.node i .leaf .leaf]
  | .node j l r =>
      (insertNode i l).map (fun t => .node j t r) ++
      (insertNode i r).map (fun t => .node j l t)

/-- Order-preserving deduplication keeping first occurrences. -/
def dedupList (ts : List ITree) : List ITree :=
  ts.foldl (fun acc t => if t ∈ acc then acc else acc ++ [t]) []

/-- Modelled from the spec: exhaustive generation of the structurally distinct
decay trees with n final-state slots, by repeatedly refining a slot into a new
vertex and deduplicating canonical forms (spec section 4.1). -/
def genTrees (n : Nat) : List ITree :=
  (List.range (n - 1)).foldl
    (fun ts i => dedupList ((ts.flatMap (insertNode i)).map ITree.norm)) [ITree.leaf]

/-- Modelled from the spec (section 3): an edge carries an identifier, an
optional originating node and an optional terminating node; no origin means
initial-state edge, no terminus means final-state edge. -/
structure Edge where
  eid : Int
  orig : Option Nat
  term : Option Nat
deriving DecidableEq

/-- Modelled from the spec (section 3): a topology is an immutable graph given
by its node ids and its edges. -/
structure Topology where
  nodes : List Nat
  edges : List Edge
deriving DecidableEq

/-- Node ids of a decay tree in preorder. -/
def ITree.nodeIds : ITree → List Nat
  | .leaf => []
  | .node j l r => j :: (ITree.nodeIds l ++ ITree.nodeIds r)

/-- Edge construction below one parent vertex: final-state edges receive ids
counting up from 0, intermediate edges ids counting up from n
(spec section 4.1, identifier assignment). -/
def buildEdges (parent : Nat) : ITree → Nat → Nat → (List Edge × Nat × Nat)
  | .leaf, fc, ic => ([⟨(fc : Int), some parent, none⟩], fc + 1, ic)
  | .node j l r, fc, ic =>
      let resL := buildEdges j l fc (ic + 1)
      let resR := buildEdges j r resL.2.1 resL.2.2
      (⟨(ic : Int), some parent, some j⟩ :: (resL.1 ++ resR.1), resR.2.1, resR.2.2)

/-- Conversion of a decay tree to a Topology: the single initial-state edge
gets the reserved id -1 outside the final-state range 0..n-1
(spec section 4.1). -/
def toTopology (n : Nat) (t : ITree) : Topology :=
  match t with
  | .leaf => ⟨[], [⟨-1, none, none⟩]⟩
  | .node j l r =>
      let resL := buildEdges j l 0 n
      let resR := buildEdges j r resL.2.1 resL.2.2
      ⟨t.nodeIds, ⟨-1, none, some j⟩ :: (resL.1 ++ resR.1)⟩

/-- Modelled from the spec (section 7): error taxonomy for topology
construction and problem building. -/
inductive QRulesError where
  | structural : QRulesError
  | configuration : QRulesError
deriving DecidableEq

/-- Modelled from the spec (section 4.1, n-body mode): a single topology with
one node, the initial edge incoming and all n final edges outgoing. -/
def create_n_body_topology (n : Nat) : Topology :=
  ⟨[0], ⟨-1, none, some 0⟩ :: (List.range n).map (fun i => ⟨(i : Int), some 0, none⟩)⟩

/-- Modelled from the spec: create_isobar_topologies (qrules.topology, source
file absent from the repository snapshot).  Fails with a structural error for
fewer than two final states (spec section 4.1, edge case); otherwise returns
the ordered sequence of structurally distinct isobar topologies, deduplicated
by canonical form, reproducing the counts stated in spec section 8. -/
def create_isobar_topologies (n : Nat) : Except QRulesError (List Topology) :=
  if n < 2 then .error .structural
  else .ok ((genTrees n).map (toTopology n))

/-- The topology list of a successful isobar generation, empty on error. -/
def isoList (n : Nat) : List Topology :=
  (create_isobar_topologies n).toOption.getD []

/-- Whether isobar generation succeeds. -/
def isoOk (n : Nat) : Bool :=
  match create_isobar_topologies n with
  | .ok _ => true
  | .error _ => false

/-- Structural invariants of a generated topology for final-state count n
(spec section 8): n final-state edges, one initial-state edge, n-1 nodes. -/
abbrev topologyOK (n : Nat) (t : Topology) : Prop :=
  (t.edges.filter (fun e => e.term = none)).length = n ∧
  (t.edges.filter (fun e => e.orig = none)).length = 1 ∧
  t.nodes.length = n - 1

/-- Modelled from the spec (section 3): a quantum-number variable lives on an
edge or on a node of the topology. -/
inductive Locus where
  | edge (id : Int) : Locus
  | node (id : Nat) : Locus
deriving DecidableEq

/-- Modelled from the spec (section 3): a named discrete quantity attached to
a locus; qty is the quantum-number name (spin magnitude, parity, ...). -/
structure VarKey where
  loc : Locus
  qty : Nat
deriving DecidableEq

/-- A (partial) assignment of discrete values to quantum-number variables. -/
abbrev Assignment := List (VarKey × Int)

/-- Value of a variable under an assignment, if present. -/
def lookupVar (a : Assignment) (k : VarKey) : Option Int :=
  (a.find? (fun e => e.1 = k)).map (fun e => e.2)

/-- Values of an ordered input tuple under an assignment; none if any input is
still free. -/
def lookupVals (a : Assignment) : List VarKey → Option (List Int)
  | [] => some []
  | k :: ks =>
      match lookupVar a k, lookupVals a ks with
      | some v, some vs => some (v :: vs)
      | _, _ => none

/-- Modelled from the spec (sections 4.2 and 9): a conservation rule is a
tagged record of a name, an ordered list of typed input slots, and a pure
predicate over the concrete input tuple (strict mode); its propagation mode is
the induced domain restriction. -/
structure Rule where
  name : Nat
  inputs : List VarKey
  check : List Int → Bool

/-- Strict-mode evaluation of a rule against an assignment: some verdict when
every declared input is concrete, none otherwise (spec section 4.2). -/
def strictEval (r : Rule) (a : Assignment) : Option Bool :=
  (lookupVals a r.inputs).map r.check

/-- A rule rejects a (partial) assignment iff its full input tuple is fixed
and the strict-mode verdict is reject. -/
def ruleFails (r : Rule) (a : Assignment) : Bool :=
  match strictEval r a with
  | some false => true
  | _ => false

/-- A rule accepts an assignment unless it is fully fixed and rejects. -/
def ruleHolds (r : Rule) (a : Assignment) : Bool :=
  !(ruleFails r a)

/-- First rule of the list (in evaluation order) whose input tuple is fully
fixed and which rejects the assignment. -/
def firstViolation (rules : List Rule) (a : Assignment) : Option Rule :=
  rules.find? (fun r => ruleFails r a)

/-- Name reported for a rejected candidate: the first violating rule in
evaluation order (spec section 4.2: diagnostics only). -/
def ledgerName (rules : List Rule) (a : Assignment) : Nat :=
  ((firstViolation rules a).map (fun r => r.name)).getD 0

/-- Modelled from the spec (sections 4.4 and 6): one rejection-ledger record,
the rejected candidate assignment together with the rejecting rule. -/
structure LedgerEntry where
  assignment : Assignment
  ruleName : Nat
deriving DecidableEq

/-- Modelled from the spec (sections 4.4 and 6): result of one solve, with the
ordered solution sequence, the rejection ledger, the number of search
iterations performed, and the truncation flag. -/
structure QNResult where
  solutions : List Assignment
  ledger : List LedgerEntry
  iterations : Nat
  truncated : Bool
deriving DecidableEq

/-- Whether the iteration budget still allows another expansion. -/
def budgetLeft (budget : Option Nat) (iters : Nat) : Bool :=
  match budget with
  | none => true
  | some b => iters < b

/-- Backtracking over the domain values of the current variable: each value
costs one iteration; a candidate rejected by a fully fixed rule is recorded in
the ledger; otherwise the search descends via goDeeper (spec section 4.4).
When the budget is exhausted the search stops with the truncation flag set. -/
def searchVals (rules : List Rule) (budget : Option Nat) (k : VarKey)
    (goDeeper : Assignment → QNResult → QNResult) :
    List Int → Assignment → QNResult → QNResult
  | [], _, st => st
  | v :: vs, a, st =>
      if st.truncated then st
      else if budgetLeft budget st.iterations then
        let st1 : QNResult :=
          ⟨st.solutions, st.ledger, st.iterations + 1, st.truncated⟩
        let a1 := a ++ [(k, v)]
        match firstViolation rules a1 with
        | some r =>
            searchVals rules budget k goDeeper vs a
              ⟨st1.solutions, st1.ledger ++ [⟨a1, r.name⟩], st1.iterations, st1.truncated⟩
        | none => searchVals rules budget k goDeeper vs a (goDeeper a1 st1)
      else ⟨st.solutions, st.ledger, st.iterations, true⟩

/-- Modelled from the spec (section 4.4): exhaustive backtracking search over
the free variables in their fixed build-time order; a full assignment passing
every rule is recorded as a solution and search continues. -/
def search (rules : List Rule) (budget : Option Nat) :
    List (VarKey × List Int) → Assignment → QNResult → QNResult
  | [], a, st =>
      if st.truncated then st
      else if rules.all (fun r => ruleHolds r a) then
        ⟨st.solutions ++ [a], st.ledger, st.iterations, st.truncated⟩
      else ⟨st.solutions, st.ledger ++ [⟨a, ledgerName rules a⟩], st.iterations, st.truncated⟩
  | (k, dom) :: rest, a, st =>
      searchVals rules budget k (fun a1 st1 => search rules budget rest a1 st1) dom a st

/-- Modelled from the spec (section 3): a QN problem set is a topology plus
the ordered variables with their finite domains (a concrete value being a
singleton domain) plus the ordered set of active rules. -/
structure QNProblemSet where
  topology : Topology
  vars : List (VarKey × List Int)
  rules : List Rule

/-- Modelled from the spec (section 4.4): CSPSolver.find_solutions, the solve
entry point (qrules.solving, source file absent from the repository snapshot);
solving a problem performs the bounded backtracking search from the empty
assignment and fresh counters. -/
def find_solutions (p : QNProblemSet) (budget : Option Nat) : QNResult :=
  search p.rules budget p.vars [] ⟨[], [], 0, false⟩

/-- Modelled from the spec (section 4.3): a well-built problem binds every
declared rule input to a variable of the problem. -/
abbrev ProblemWF (p : QNProblemSet) : Prop :=
  ∀ r ∈ p.rules, ∀ i ∈ r.inputs, i ∈ p.vars.map (fun v => v.1)

/-- All full assignments over the given ordered variables, in search order. -/
def allAssignments : List (VarKey × List Int) → List Assignment
  | [] => [[]]
  | (k, dom) :: rest =>
      dom.flatMap (fun v => (allAssignments rest).map (fun ext => (k, v) :: ext))

/-- Whether a variable is kept when restricting to quantity set K. -/
def keepKey (K : List Nat) (k : VarKey) : Bool :=
  decide (k.qty ∈ K)

/-- Projection of an assignment onto the quantities in K. -/
def proj (K : List Nat) (a : Assignment) : Assignment :=
  a.filter (fun e => keepKey K e.1)

/-- Modelled from the spec (section 4.5): filter_quantum_number_problem_set
(qrules.solving, source file absent from the repository snapshot) derives a
narrower problem over the same topology: edge variables keep only the
quantities in K1, node variables only those in K2, and only the rules whose
names are in R remain bound. -/
def filter_quantum_number_problem_set (p : QNProblemSet)
    (K1 K2 : List Nat) (R : List Nat) : QNProblemSet :=
  { topology := p.topology
    vars := p.vars.filter (fun v =>
      match v.1.loc with
      | .edge _ => decide (v.1.qty ∈ K1)
      | .node _ => decide (v.1.qty ∈ K2))
    rules := p.rules.filter (fun r => decide (r.name ∈ R)) }

/-- A problem with only the rules named in R active, tracked quantities
unchanged. -/
def restrictRules (p : QNProblemSet) (R : List Nat) : QNProblemSet :=
  { topology := p.topology
    vars := p.vars
    rules := p.rules.filter (fun r => decide (r.name ∈ R)) }

/-- Observable equivalence of two solver results: identical solutions,
identical rejected candidates (the reporting rule name aside), identical
iteration count and truncation flag. -/
def obsEq (r₁ r₂ : QNResult) : Prop :=
  r₁.solutions = r₂.solutions ∧
  r₁.ledger.map (fun e => e.assignment) = r₂.ledger.map (fun e => e.assignment) ∧
  r₁.iterations = r₂.iterations ∧
  r₁.truncated = r₂.truncated

/-- Default completion of an assignment over the kept variables to one over
all variables, choosing the first domain value for every dropped variable. -/
def complete (K : List Nat) : List (VarKey × List Int) → Assignment → Assignment
  | [], _ => []
  | (k, dom) :: rest, s =>
      if keepKey K k then
        match s with
        | e :: s2 => e :: complete K rest s2
        | [] => []
      else (k, dom.headD 0) :: complete K rest s

/-- Example quantum-number variable on the first final-state edge. -/
def exK0 : VarKey := ⟨.edge 0, 0⟩

/-- Example quantum-number variable on the interaction node. -/
def exK1 : VarKey := ⟨.node 0, 1⟩

/-- Example two-input conservation rule, satisfied when the values sum to 1. -/
def exRule : Rule := ⟨7, [exK0, exK1], fun vs => decide (vs.sum = 1)⟩

/-- Example one-input conservation rule, satisfied on nonnegative values. -/
def exRuleB : Rule := ⟨8, [exK0], fun vs => decide (0 ≤ vs.sum)⟩

/-- Example QN problem: the two-body topology with two binary variables and
one two-input rule. -/
def exProblem : QNProblemSet :=
  ⟨create_n_body_topology 2, [(exK0, [0, 1]), (exK1, [0, 1])], [exRule]⟩

/-- Example QN problem with two rules, for rule-order experiments. -/
def exProblem2 : QNProblemSet :=
  ⟨create_n_body_topology 2, [(exK0, [0, 1]), (exK1, [0, 1])], [exRule, exRuleB]⟩

/-- The example two-rule problem with its rules transposed. -/
def exProblemSwap : QNProblemSet :=
  ⟨create_n_body_topology 2, [(exK0, [0, 1]), (exK1, [0, 1])], [exRuleB, exRule]⟩

/-- Example rule-free QN problem with a single binary variable. -/
def exNoRules : QNProblemSet :=
  ⟨create_n_body_topology 2, [(exK0, [0, 1])], []⟩

theorem searchVals_truncated_id (rules budget k go) :
    ∀ (dom : List Int) (a : Assignment) (st : QNResult),
      st.truncated = true → searchVals rules budget k go dom a st = st := by
  intro dom a st h
  cases dom with
  | nil => simp [searchVals]
  | cons v vs => simp [searchVals, h]

theorem search_truncated_id (rules budget) :
    ∀ (vars : List (VarKey × List Int)) (a : Assignment) (st : QNResult),
      st.truncated = true → search rules budget vars a st = st := by
  intro vars a st h
  cases vars with
  | nil => simp [search, h]
  | cons kv rest =>
      obtain ⟨k, dom⟩ := kv
      simp only [search]
      exact searchVals_truncated_id rules budget k _ dom a st h

theorem searchVals_sound (rules : List Rule) (budget : Option Nat) (k : VarKey)
    (go : Assignment → QNResult → QNResult) (C : Assignment → Prop) (a : Assignment)
    (hgo : ∀ v st1, ∀ s ∈ (go (a ++ [(k, v)]) st1).solutions, s ∈ st1.solutions ∨ C s) :
    ∀ (dom : List Int) (st : QNResult),
      ∀ s ∈ (searchVals rules budget k go dom a st).solutions, s ∈ st.solutions ∨ C s := by
  intro dom
  induction dom with
  | nil => intro st s hs; simp only [searchVals] at hs; exact Or.inl hs
  | cons v vs ih =>
      intro st s hs
      simp only [searchVals] at hs
      by_cases ht : st.truncated = true
      · simp [ht] at hs; exact Or.inl hs
      · simp only [ht] at hs
        simp only [Bool.false_eq_true, if_false] at hs
        by_cases hb : budgetLeft budget st.iterations = true
        · simp only [hb, if_true] at hs
          cases hv : firstViolation rules (a ++ [(k, v)]) with
          | some r =>
              simp only [hv] at hs
              have := ih _ s hs
              simpa using this
          | none =>
              simp only [hv] at hs
              have h2 := ih _ s hs
              cases h2 with
              | inl h3 =>
                  have h4 := hgo v _ s h3
                  simpa using h4
              | inr h3 => exact Or.inr h3
        · simp only [hb, Bool.false_eq_true, if_false] at hs
          exact Or.inl hs

theorem search_sound (rules : List Rule) (budget : Option Nat) :
    ∀ (vars : List (VarKey × List Int)) (a : Assignment) (st : QNResult),
      ∀ s ∈ (search rules budget vars a st).solutions,
        s ∈ st.solutions ∨
          (rules.all (fun r => ruleHolds r s) = true ∧
           s.map (fun e => e.1) = a.map (fun e => e.1) ++ vars.map (fun v => v.1)) := by
  intro vars
  induction vars with
  | nil =>
      intro a st s hs
      simp only [search] at hs
      by_cases ht : st.truncated = true
      · simp [ht] at hs; exact Or.inl hs
      · simp only [ht, Bool.false_eq_true, if_false] at hs
        by_cases hall : rules.all (fun r => ruleHolds r a) = true
        · simp only [hall, if_true] at hs
          simp only [List.mem_append, List.mem_singleton] at hs
          cases hs with
          | inl h => exact Or.inl h
          | inr h => subst h; exact Or.inr ⟨hall, by simp⟩
        · simp only [hall] at hs
          simp only [Bool.false_eq_true, if_false] at hs
          exact Or.inl hs
  | cons kv rest ih =>
      obtain ⟨k, dom⟩ := kv
      intro a st s hs
      simp only [search] at hs
      have := searchVals_sound rules budget k _
        (fun s => rules.all (fun r => ruleHolds r s) = true ∧
          s.map (fun e => e.1) = (a.map (fun e => e.1) ++ [k]) ++ rest.map (fun v => v.1))
        a
        (fun v st1 s hs1 => by
          have h2 := ih (a ++ [(k, v)]) st1 s hs1
          cases h2 with
          | inl h3 => exact Or.inl h3
          | inr h3 => exact Or.inr ⟨h3.1, by simpa using h3.2⟩)
        dom st s hs
      cases this with
      | inl h => exact Or.inl h
      | inr h => exact Or.inr ⟨h.1, by simpa [List.append_assoc] using h.2⟩

theorem lookupVar_of_mem_keys (a : Assignment) (k : VarKey)
    (h : k ∈ a.map (fun e => e.1)) : ∃ v, lookupVar a k = some v := by
  induction a with
  | nil => simp at h
  | cons e rest ih =>
      by_cases he : e.1 = k
      · exact ⟨e.2, by simp [lookupVar, List.find?, he]⟩
      · have h2 : k ∈ rest.map (fun e => e.1) := by
          simp only [List.map_cons, List.mem_cons] at h
          cases h with
          | inl h3 => exact absurd h3.symm he
          | inr h3 => exact h3
        obtain ⟨v, hv⟩ := ih h2
        refine ⟨v, ?_⟩
        simp only [lookupVar, List.find?]
        simp only [he, decide_False]
        exact hv

theorem lookupVals_total (a : Assignment) (inputs : List VarKey)
    (h : ∀ i ∈ inputs, i ∈ a.map (fun e => e.1)) :
    ∃ vals, lookupVals a inputs = some vals := by
  induction inputs with
  | nil => exact ⟨[], rfl⟩
  | cons i rest ih =>
      obtain ⟨v, hv⟩ := lookupVar_of_mem_keys a i (h i (by simp))
      obtain ⟨vals, hvals⟩ := ih (fun j hj => h j (by simp [hj]))
      exact ⟨v :: vals, by simp [lookupVals, hv, hvals]⟩

theorem strictEval_of_holds (r : Rule) (a : Assignment)
    (htot : ∀ i ∈ r.inputs, i ∈ a.map (fun e => e.1))
    (hh : ruleHolds r a = true) : strictEval r a = some true := by
  obtain ⟨vals, hvals⟩ := lookupVals_total a r.inputs htot
  have hse : strictEval r a = some (r.check vals) := by simp [strictEval, hvals]
  cases hc : r.check vals with
  | true => rw [hse, hc]
  | false =>
      exfalso
      have : ruleFails r a = true := by simp [ruleFails, hse, hc]
      simp [ruleHolds, this] at hh

/-- C2: every solution returned by the solver, re-evaluated in strict mode
against the full assignment, is accepted by every bound rule. -/
theorem find_solutions_sound (p : QNProblemSet) (b : Option Nat) (hwf : ProblemWF p) :
    ∀ s ∈ (find_solutions p b).solutions, ∀ r ∈ p.rules, strictEval r s = some true := by
  intro s hs r hr
  have h := search_sound p.rules b p.vars [] ⟨[], [], 0, false⟩ s hs
  simp only [List.not_mem_nil, false_or] at h
  obtain ⟨hall, hkeys⟩ := h
  have htot : ∀ i ∈ r.inputs, i ∈ s.map (fun e => e.1) := by
    intro i hi
    rw [hkeys]
    simpa using hwf r hr i hi
  have hholds : ruleHolds r s = true := by
    rw [List.all_eq_true] at hall
    exact hall r hr
  exact strictEval_of_holds r s htot hholds

theorem perm_all {α : Type} (f : α → Bool) {l₁ l₂ : List α} (h : l₁.Perm l₂) :
    l₁.all f = l₂.all f := by
  induction h with
  | nil => rfl
  | cons x h ih => simp [List.all_cons, ih]
  | swap x y l => simp [List.all_cons, Bool.and_left_comm, Bool.and_comm]
  | trans h1 h2 ih1 ih2 => rw [ih1, ih2]

theorem perm_find?_none {α : Type} (f : α → Bool) {l₁ l₂ : List α} (h : l₁.Perm l₂) :
    l₁.find? f = none ↔ l₂.find? f = none := by
  rw [List.find?_eq_none, List.find?_eq_none]
  constructor
  · intro h1 x hx; exact h1 x (h.mem_iff.mpr hx)
  · intro h1 x hx; exact h1 x (h.mem_iff.mp hx)

theorem searchVals_perm (rules₁ rules₂ : List Rule) (hperm : rules₁.Perm rules₂)
    (budget : Option Nat) (k : VarKey) (go₁ go₂ : Assignment → QNResult → QNResult)
    (hgo : ∀ a1 st1 st2, obsEq st1 st2 → obsEq (go₁ a1 st1) (go₂ a1 st2)) :
    ∀ (dom : List Int) (a : Assignment) (st1 st2 : QNResult), obsEq st1 st2 →
      obsEq (searchVals rules₁ budget k go₁ dom a st1)
        (searchVals rules₂ budget k go₂ dom a st2) := by
  intro dom
  induction dom with
  | nil => intro a st1 st2 h; simpa [searchVals] using h
  | cons v vs ih =>
      intro a st1 st2 h
      obtain ⟨hs, hl, hi, ht⟩ := h
      simp only [searchVals, ← ht, ← hi]
      by_cases htr : st1.truncated = true
      · simp only [htr, if_true]
        exact ⟨hs, hl, hi, ht⟩
      · simp only [htr, Bool.false_eq_true, if_false]
        by_cases hb : budgetLeft budget st1.iterations = true
        · simp only [hb, if_true]
          cases hv1 : firstViolation rules₁ (a ++ [(k, v)]) with
          | some r =>
              have hv2 : ∃ r2, firstViolation rules₂ (a ++ [(k, v)]) = some r2 := by
                cases hv2 : firstViolation rules₂ (a ++ [(k, v)]) with
                | some r2 => exact ⟨r2, rfl⟩
                | none =>
                    exfalso
                    have := (perm_find?_none _ hperm).mpr hv2
                    rw [firstViolation] at hv1
                    rw [this] at hv1
                    exact Option.noConfusion hv1
              obtain ⟨r2, hv2⟩ := hv2
              rw [hv2]
              apply ih
              refine ⟨hs, ?_, rfl, rfl⟩
              simp only [List.map_append, hl, List.map_cons, List.map_nil]
          | none =>
              have hv2 : firstViolation rules₂ (a ++ [(k, v)]) = none :=
                (perm_find?_none _ hperm).mp hv1
              rw [hv2]
              apply ih
              exact hgo _ _ _ ⟨hs, hl, rfl, rfl⟩
        · simp only [hb, Bool.false_eq_true, if_false]
          exact ⟨hs, hl, rfl, rfl⟩

theorem search_perm (rules₁ rules₂ : List Rule) (hperm : rules₁.Perm rules₂)
    (budget : Option Nat) :
    ∀ (vars : List (VarKey × List Int)) (a : Assignment) (st1 st2 : QNResult),
      obsEq st1 st2 →
      obsEq (search rules₁ budget vars a st1) (search rules₂ budget vars a st2) := by
  intro vars
  induction vars with
  | nil =>
      intro a st1 st2 h
      obtain ⟨hs, hl, hi, ht⟩ := h
      simp only [search, ← ht]
      by_cases htr : st1.truncated = true
      · simp only [htr, if_true]; exact ⟨hs, hl, hi, ht⟩
      · simp only [htr, Bool.false_eq_true, if_false]
        rw [← perm_all (fun r => ruleHolds r a) hperm]
        by_cases hall : rules₁.all (fun r => ruleHolds r a) = true
        · simp only [hall, if_true]
          refine ⟨by rw [hs], hl, hi, rfl⟩
        · simp only [hall, Bool.false_eq_true, if_false]
          refine ⟨hs, ?_, hi, rfl⟩
          simp only [List.map_append, hl, List.map_cons, List.map_nil]
      | cons kv rest ih =>
          intro a st1 st2 h
          obtain ⟨k, dom⟩ := kv
          simp only [search]
          exact searchVals_perm rules₁ rules₂ hperm budget k _ _
            (fun a1 s1 s2 hh => ih a1 s1 s2 hh) dom a st1 st2 h

theorem budgetLeft_none (i : Nat) : budgetLeft none i = true := rfl

theorem searchVals_trunc_mono (rules budget k go) (dom : List Int) (a : Assignment)
    (st : QNResult) (h : (searchVals rules budget k go dom a st).truncated = false) :
    st.truncated = false := by
  by_contra hc
  have hc2 : st.truncated = true := by
    cases hx : st.truncated with
    | true => rfl
    | false => exact absurd hx hc
  rw [searchVals_truncated_id rules budget k go dom a st hc2] at h
  rw [hc2] at h
  exact Bool.noConfusion h

theorem search_trunc_mono (rules budget) (vars : List (VarKey × List Int)) (a : Assignment)
    (st : QNResult) (h : (search rules budget vars a st).truncated = false) :
    st.truncated = false := by
  by_contra hc
  have hc2 : st.truncated = true := by
    cases hx : st.truncated with
    | true => rfl
    | false => exact absurd hx hc
  rw [search_truncated_id rules budget vars a st hc2] at h
  rw [hc2] at h
  exact Bool.noConfusion h

theorem searchVals_iter_cap (rules : List Rule) (b : Nat) (k : VarKey)
    (go : Assignment → QNResult → QNResult)
    (hgo : ∀ a1 st1, st1.iterations ≤ b → (go a1 st1).iterations ≤ b) :
    ∀ (dom : List Int) (a : Assignment) (st : QNResult), st.iterations ≤ b →
      (searchVals rules (some b) k go dom a st).iterations ≤ b := by
  intro dom
  induction dom with
  | nil => intro a st h; simpa [searchVals] using h
  | cons v vs ih =>
      intro a st h
      simp only [searchVals]
      by_cases htr : st.truncated = true
      · simpa [htr] using h
      · simp only [htr, Bool.false_eq_true, if_false]
        by_cases hb : budgetLeft (some b) st.iterations = true
        · simp only [hb, if_true]
          have hlt : st.iterations < b := by simpa [budgetLeft] using hb
          cases hv : firstViolation rules (a ++ [(k, v)]) with
          | some r => exact ih a _ (by simpa using hlt)
          | none => exact ih a _ (hgo _ _ (by simpa using hlt))
        · simpa [hb] using h

theorem search_iter_cap (rules : List Rule) (b : Nat) :
    ∀ (vars : List (VarKey × List Int)) (a : Assignment) (st : QNResult),
      st.iterations ≤ b → (search rules (some b) vars a st).iterations ≤ b := by
  intro vars
  induction vars with
  | nil =>
      intro a st h
      simp only [search]
      by_cases htr : st.truncated = true
      · simpa [htr] using h
      · simp only [htr, Bool.false_eq_true, if_false]
        by_cases hall : rules.all (fun r => ruleHolds r a) = true
        · simpa [hall] using h
        · simpa [hall] using h
  | cons kv rest ih =>
      obtain ⟨k, dom⟩ := kv
      intro a st h
      simp only [search]
      exact searchVals_iter_cap rules b k _ (fun a1 st1 h1 => ih a1 st1 h1) dom a st h

theorem searchVals_untrunc_eq (rules : List Rule) (b : Nat) (k : VarKey)
    (go₁ go₀ : Assignment → QNResult → QNResult)
    (hgo_mono : ∀ a1 st1, (go₁ a1 st1).truncated = false → st1.truncated = false)
    (hgo_eq : ∀ a1 st1, (go₁ a1 st1).truncated = false → go₁ a1 st1 = go₀ a1 st1) :
    ∀ (dom : List Int) (a : Assignment) (st : QNResult),
      (searchVals rules (some b) k go₁ dom a st).truncated = false →
      searchVals rules (some b) k go₁ dom a st = searchVals rules none k go₀ dom a st := by
  intro dom
  induction dom with
  | nil => intro a st h; simp [searchVals]
  | cons v vs ih =>
      intro a st h
      have hst : st.truncated = false :=
        searchVals_trunc_mono rules (some b) k go₁ (v :: vs) a st h
      by_cases hb : budgetLeft (some b) st.iterations = true
      · simp only [searchVals, hst, Bool.false_eq_true, if_false, hb, if_true,
          budgetLeft_none] at h ⊢
        cases hv : firstViolation rules (a ++ [(k, v)]) with
        | some r =>
            simp only [hv] at h ⊢
            exact ih a _ h
        | none =>
            simp only [hv] at h ⊢
            have hgo_tr : (go₁ (a ++ [(k, v)])
                ⟨st.solutions, st.ledger, st.iterations + 1, false⟩).truncated = false :=
              searchVals_trunc_mono rules (some b) k go₁ vs a _ h
            rw [← hgo_eq _ _ hgo_tr]
            exact ih a _ h
      · exfalso
        simp only [searchVals, hst, Bool.false_eq_true, if_false, hb] at h
        exact Bool.noConfusion h

theorem search_untrunc_eq (rules : List Rule) (b : Nat) :
    ∀ (vars : List (VarKey × List Int)) (a : Assignment) (st : QNResult),
      (search rules (some b) vars a st).truncated = false →
      search rules (some b) vars a st = search rules none vars a st := by
  intro vars
  induction vars with
  | nil => intro a st h; simp [search]
  | cons kv rest ih =>
      obtain ⟨k, dom⟩ := kv
      intro a st h
      simp only [search] at h ⊢
      exact searchVals_untrunc_eq rules b k _ _
        (fun a1 st1 h1 => search_trunc_mono rules (some b) rest a1 st1 h1)
        (fun a1 st1 h1 => ih a1 st1 h1) dom a st h

theorem lookupVar_append_left (a ext : Assignment) (k : VarKey) (v : Int)
    (h : lookupVar a k = some v) : lookupVar (a ++ ext) k = some v := by
  simp only [lookupVar] at h ⊢
  rw [List.find?_append]
  cases hf : a.find? (fun e => decide (e.1 = k)) with
  | none => rw [hf] at h; exact Option.noConfusion h
  | some e => rw [hf] at h; simp only [Option.or_some]; exact h

theorem lookupVals_append_left (a ext : Assignment) (inputs : List VarKey)
    (vals : List Int) (h : lookupVals a inputs = some vals) :
    lookupVals (a ++ ext) inputs = some vals := by
  induction inputs generalizing vals with
  | nil => simpa [lookupVals] using h
  | cons i rest ih =>
      simp only [lookupVals] at h ⊢
      cases hv : lookupVar a i with
      | none => rw [hv] at h; exact Option.noConfusion h
      | some v =>
          rw [hv] at h
          cases hvs : lookupVals a rest with
          | none => rw [hvs] at h; exact Option.noConfusion h
          | some vs =>
              rw [hvs] at h
              rw [lookupVar_append_left a ext i v hv, ih vs hvs]
              exact h

theorem strictEval_append_left (r : Rule) (a ext : Assignment) (x : Bool)
    (h : strictEval r a = some x) : strictEval r (a ++ ext) = some x := by
  simp only [strictEval] at h ⊢
  cases hv : lookupVals a r.inputs with
  | none => rw [hv] at h; exact Option.noConfusion h
  | some vals =>
      rw [hv] at h
      rw [lookupVals_append_left a ext r.inputs vals hv]
      exact h

theorem all_false_of_violation (rules : List Rule) (a ext : Assignment) (r : Rule)
    (hv : firstViolation rules a = some r) :
    rules.all (fun r2 => ruleHolds r2 (a ++ ext)) = false := by
  rw [firstViolation] at hv
  have hmem : r ∈ rules := List.mem_of_find?_eq_some hv
  have hfail0 := List.find?_some hv
  have hfail : ruleFails r a = true := hfail0
  have hfail2 : ruleFails r (a ++ ext) = true := by
    simp only [ruleFails] at hfail ⊢
    cases hse : strictEval r a with
    | none => rw [hse] at hfail; exact Bool.noConfusion hfail
    | some x =>
        rw [hse] at hfail
        rw [strictEval_append_left r a ext x hse]
        exact hfail
  cases hall : rules.all (fun r2 => ruleHolds r2 (a ++ ext)) with
  | false => rfl
  | true =>
      exfalso
      rw [List.all_eq_true] at hall
      have := hall r hmem
      simp [ruleHolds, hfail2] at this

theorem flatMap_congr_local {α β : Type} (l : List α) (f g : α → List β)
    (h : ∀ x ∈ l, f x = g x) : l.flatMap f = l.flatMap g := by
  induction l with
  | nil => rfl
  | cons x xs ih =>
      rw [List.flatMap_cons, List.flatMap_cons, h x (by simp),
        ih (fun y hy => h y (by simp [hy]))]

theorem filterMap_congr_local {α β : Type} (l : List α) (f g : α → Option β)
    (h : ∀ x ∈ l, f x = g x) : l.filterMap f = l.filterMap g := by
  induction l with
  | nil => rfl
  | cons x xs ih =>
      rw [List.filterMap_cons, List.filterMap_cons, h x (by simp),
        ih (fun y hy => h y (by simp [hy]))]

theorem filterMap_if_eq_filter {α : Type} (p : α → Bool) (l : List α) :
    l.filterMap (fun x => if p x = true then some x else none) = l.filter p := by
  induction l with
  | nil => rfl
  | cons x xs ih =>
      rw [List.filterMap_cons, List.filter_cons]
      cases hx : p x with
      | true => rw [if_pos rfl, if_pos rfl, ih]
      | false =>
          rw [if_neg (by simp), if_neg (by simp), ih]

theorem searchVals_charact (rules : List Rule) (k : VarKey)
    (rest : List (VarKey × List Int)) (a : Assignment)
    (hgo : ∀ a1 st1, st1.truncated = false →
      (search rules none rest a1 st1).solutions =
        st1.solutions ++ (allAssignments rest).filterMap (fun ext =>
          if rules.all (fun r => ruleHolds r (a1 ++ ext)) then some (a1 ++ ext) else none) ∧
      (search rules none rest a1 st1).truncated = false) :
    ∀ (dom : List Int) (st : QNResult), st.truncated = false →
      (searchVals rules none k (fun a1 st1 => search rules none rest a1 st1) dom a st).solutions =
        st.solutions ++ dom.flatMap (fun v => (allAssignments rest).filterMap (fun ext =>
          if rules.all (fun r => ruleHolds r ((a ++ [(k, v)]) ++ ext)) then
            some ((a ++ [(k, v)]) ++ ext) else none)) ∧
      (searchVals rules none k (fun a1 st1 => search rules none rest a1 st1) dom a st).truncated
        = false := by
  intro dom
  induction dom with
  | nil => intro st hst; simp [searchVals, hst]
  | cons v vs ih =>
      intro st hst
      simp only [searchVals, hst, Bool.false_eq_true, if_false, budgetLeft_none, if_true]
      cases hv : firstViolation rules (a ++ [(k, v)]) with
      | some r =>
          simp only [hv]
          have hcontrib : (allAssignments rest).filterMap (fun ext =>
              if rules.all (fun r2 => ruleHolds r2 ((a ++ [(k, v)]) ++ ext)) then
                some ((a ++ [(k, v)]) ++ ext) else none) = [] := by
            rw [List.filterMap_eq_nil_iff]
            intro ext hext
            rw [all_false_of_violation rules (a ++ [(k, v)]) ext r hv]
            simp
          obtain ⟨h1, h2⟩ := ih ⟨st.solutions,
            st.ledger ++ [⟨a ++ [(k, v)], r.name⟩], st.iterations + 1, false⟩ rfl
          refine ⟨?_, h2⟩
          rw [h1, List.flatMap_cons, hcontrib, List.nil_append]
      | none =>
          simp only [hv]
          obtain ⟨hg1, hg2⟩ := hgo (a ++ [(k, v)])
            ⟨st.solutions, st.ledger, st.iterations + 1, false⟩ rfl
          obtain ⟨h1, h2⟩ := ih _ hg2
          refine ⟨?_, h2⟩
          rw [h1, hg1, List.flatMap_cons, List.append_assoc]

theorem search_charact (rules : List Rule) :
    ∀ (vars : List (VarKey × List Int)) (a : Assignment) (st : QNResult),
      st.truncated = false →
      (search rules none vars a st).solutions =
        st.solutions ++ (allAssignments vars).filterMap (fun ext =>
          if rules.all (fun r => ruleHolds r (a ++ ext)) then some (a ++ ext) else none) ∧
      (search rules none vars a st).truncated = false := by
  intro vars
  induction vars with
  | nil =>
      intro a st hst
      have hfnil : ([([] : Assignment)]).filterMap (fun ext =>
          if rules.all (fun r => ruleHolds r (a ++ ext)) = true then some (a ++ ext)
          else none) =
          if rules.all (fun r => ruleHolds r a) = true then [a] else [] := by
        rw [List.filterMap_cons, List.filterMap_nil]
        by_cases hall : rules.all (fun r => ruleHolds r a) = true
        · rw [if_pos (by simpa using hall), if_pos hall]
          simp
        · rw [if_neg (by simpa using hall), if_neg hall]
      simp only [search, hst, Bool.false_eq_true, if_false, allAssignments, hfnil]
      by_cases hall : rules.all (fun r => ruleHolds r a) = true
      · rw [if_pos hall, if_pos hall]
        exact ⟨rfl, rfl⟩
      · rw [if_neg hall, if_neg hall]
        exact ⟨by rw [List.append_nil], rfl⟩
  | cons kv rest ih =>
      obtain ⟨k, dom⟩ := kv
      intro a st hst
      simp only [search]
      obtain ⟨h1, h2⟩ := searchVals_charact rules k rest a
        (fun a1 st1 hst1 => ih a1 st1 hst1) dom st hst
      refine ⟨?_, h2⟩
      rw [h1]
      simp only [allAssignments, List.filterMap_flatMap, List.filterMap_map]
      refine congrArg (fun L => st.solutions ++ L) ?_
      apply flatMap_congr_local
      intro v hv
      apply filterMap_congr_local
      intro ext hext
      simp only [Function.comp]
      rw [List.append_cons a (k, v) ext]

/-- Solutions of an unbudgeted solve are exactly the full assignments over the
problem variables, in canonical enumeration order, that every rule accepts. -/
theorem find_solutions_none_charact (p : QNProblemSet) :
    (find_solutions p none).solutions =
      (allAssignments p.vars).filter (fun a => p.rules.all (fun r => ruleHolds r a)) := by
  obtain ⟨h1, h2⟩ := search_charact p.rules p.vars [] ⟨[], [], 0, false⟩ rfl
  rw [find_solutions, h1]
  have harg : (fun ext => if p.rules.all (fun r => ruleHolds r (([] : Assignment) ++ ext)) = true
      then some (([] : Assignment) ++ ext) else none) =
      (fun x => if p.rules.all (fun r => ruleHolds r x) = true then some x else none) := by
    funext ext
    rw [List.nil_append]
  rw [harg, filterMap_if_eq_filter]
  rfl

theorem all_congr_local {α : Type} (l : List α) (f g : α → Bool)
    (h : ∀ x ∈ l, f x = g x) : l.all f = l.all g := by
  induction l with
  | nil => rfl
  | cons x xs ih =>
      rw [List.all_cons, List.all_cons, h x (by simp),
        ih (fun y hy => h y (by simp [hy]))]

theorem headD_mem {α : Type} (l : List α) (d : α) (h : l ≠ []) : l.headD d ∈ l := by
  cases l with
  | nil => exact absurd rfl h
  | cons x xs => simp [List.headD]

theorem lookupVar_proj (K : List Nat) (a : Assignment) (k : VarKey)
    (hk : keepKey K k = true) : lookupVar (proj K a) k = lookupVar a k := by
  induction a with
  | nil => rfl
  | cons e rest ih =>
      simp only [proj, List.filter_cons]
      by_cases hkeep : keepKey K e.1 = true
      · simp only [hkeep, if_true]
        by_cases he : e.1 = k
        · simp [lookupVar, List.find?, he]
        · simp only [lookupVar, List.find?, he, decide_False]
          exact ih
      · simp only [hkeep, Bool.false_eq_true, if_false]
        have he : ¬e.1 = k := fun hek => hkeep (hek ▸ hk)
        rw [show lookupVar (e :: rest) k = lookupVar rest k by
          simp only [lookupVar, List.find?, he, decide_False]]
        exact ih

theorem lookupVals_proj (K : List Nat) (a : Assignment) (inputs : List VarKey)
    (h : ∀ i ∈ inputs, keepKey K i = true) :
    lookupVals (proj K a) inputs = lookupVals a inputs := by
  induction inputs with
  | nil => rfl
  | cons i rest ih =>
      simp only [lookupVals]
      rw [lookupVar_proj K a i (h i (by simp)), ih (fun j hj => h j (by simp [hj]))]

theorem ruleHolds_proj (K : List Nat) (r : Rule) (a : Assignment)
    (h : ∀ i ∈ r.inputs, keepKey K i = true) :
    ruleHolds r (proj K a) = ruleHolds r a := by
  simp only [ruleHolds, ruleFails, strictEval]
  rw [lookupVals_proj K a r.inputs h]

theorem proj_allAssignments (K : List Nat) :
    ∀ (vars : List (VarKey × List Int)) (ext : Assignment),
      ext ∈ allAssignments vars →
      proj K ext ∈ allAssignments (vars.filter (fun v => keepKey K v.1)) := by
  intro vars
  induction vars with
  | nil =>
      intro ext hext
      simp only [allAssignments, List.mem_singleton] at hext
      subst hext
      simp [proj, allAssignments]
  | cons kv rest ih =>
      obtain ⟨k, dom⟩ := kv
      intro ext hext
      simp only [allAssignments, List.mem_flatMap, List.mem_map] at hext
      obtain ⟨v, hv, ext2, hext2, rfl⟩ := hext
      simp only [List.filter_cons]
      by_cases hkeep : keepKey K k = true
      · simp only [hkeep, if_true, allAssignments, List.mem_flatMap, List.mem_map]
        refine ⟨v, hv, proj K ext2, ih ext2 hext2, ?_⟩
        simp [proj, List.filter_cons, hkeep]
      · simp only [hkeep, Bool.false_eq_true, if_false]
        have : proj K ((k, v) :: ext2) = proj K ext2 := by
          simp [proj, List.filter_cons, hkeep]
        rw [this]
        exact ih ext2 hext2

theorem complete_spec (K : List Nat) :
    ∀ (vars : List (VarKey × List Int)) (s : Assignment),
      (∀ v ∈ vars, v.2 ≠ []) →
      s ∈ allAssignments (vars.filter (fun v => keepKey K v.1)) →
      complete K vars s ∈ allAssignments vars ∧ proj K (complete K vars s) = s := by
  intro vars
  induction vars with
  | nil =>
      intro s hne hs
      simp only [List.filter_nil, allAssignments, List.mem_singleton] at hs
      subst hs
      exact ⟨by simp [complete, allAssignments], by simp [complete, proj]⟩
  | cons kv rest ih =>
      obtain ⟨k, dom⟩ := kv
      intro s hne hs
      simp only [List.filter_cons] at hs
      by_cases hkeep : keepKey K k = true
      · rw [if_pos hkeep] at hs
        simp only [allAssignments, List.mem_flatMap, List.mem_map] at hs
        obtain ⟨v, hv, s2, hs2, rfl⟩ := hs
        obtain ⟨ihmem, ihproj⟩ := ih s2 (fun w hw => hne w (by simp [hw])) hs2
        constructor
        · simp only [complete, hkeep, if_true, allAssignments, List.mem_flatMap,
            List.mem_map]
          exact ⟨v, hv, complete K rest s2, ihmem, rfl⟩
        · simp only [complete, hkeep, if_true, proj, List.filter_cons, hkeep]
          simpa [proj] using ihproj
      · rw [if_neg hkeep] at hs
        obtain ⟨ihmem, ihproj⟩ := ih s (fun w hw => hne w (by simp [hw])) hs
        constructor
        · simp only [complete, hkeep, Bool.false_eq_true, if_false, allAssignments,
            List.mem_flatMap, List.mem_map]
          refine ⟨dom.headD 0, headD_mem dom 0 (hne (k, dom) (by simp)), complete K rest s,
            ihmem, rfl⟩
        · simp only [complete, hkeep, Bool.false_eq_true, if_false, proj,
            List.filter_cons]
          simpa [proj] using ihproj

theorem reduce_vars_eq (p : QNProblemSet) (K R : List Nat) :
    (filter_quantum_number_problem_set p K K R).vars =
      p.vars.filter (fun v => keepKey K v.1) := by
  simp only [filter_quantum_number_problem_set]
  apply List.filter_congr
  intro v hv
  cases hloc : v.1.loc with
  | edge i => simp [keepKey, hloc]
  | node i => simp [keepKey, hloc]

/-- C6: when every kept rule reads only kept quantities, the solutions of the
reduced problem are exactly the projections onto the kept quantities of the
solutions of the original problem solved with only the kept rules active. -/
theorem filter_consistent (p : QNProblemSet) (K R : List Nat)
    (hwf : ∀ r ∈ p.rules, r.name ∈ R → ∀ i ∈ r.inputs, keepKey K i = true)
    (hne : ∀ v ∈ p.vars, v.2 ≠ []) :
    ∀ s, s ∈ (find_solutions (filter_quantum_number_problem_set p K K R) none).solutions ↔
      s ∈ (find_solutions (restrictRules p R) none).solutions.map (proj K) := by
  intro s
  rw [find_solutions_none_charact, find_solutions_none_charact]
  have hrules : (filter_quantum_number_problem_set p K K R).rules =
      p.rules.filter (fun r => decide (r.name ∈ R)) := rfl
  have hrules2 : (restrictRules p R).rules =
      p.rules.filter (fun r => decide (r.name ∈ R)) := rfl
  have hvars2 : (restrictRules p R).vars = p.vars := rfl
  have hkept : ∀ r ∈ p.rules.filter (fun r => decide (r.name ∈ R)),
      ∀ i ∈ r.inputs, keepKey K i = true := by
    intro r hr
    rw [List.mem_filter] at hr
    exact hwf r hr.1 (by simpa using hr.2)
  rw [hrules, hrules2, hvars2, reduce_vars_eq]
  constructor
  · intro hs
    rw [List.mem_filter] at hs
    obtain ⟨hmem, hpass⟩ := hs
    obtain ⟨hcmem, hcproj⟩ := complete_spec K p.vars s hne hmem
    rw [List.mem_map]
    refine ⟨complete K p.vars s, ?_, hcproj⟩
    rw [List.mem_filter]
    refine ⟨hcmem, ?_⟩
    rw [← hpass]
    apply all_congr_local
    intro r hr
    rw [← ruleHolds_proj K r (complete K p.vars s) (hkept r hr), hcproj]
  · intro hs
    rw [List.mem_map] at hs
    obtain ⟨t, ht, rfl⟩ := hs
    rw [List.mem_filter] at ht
    obtain ⟨htmem, htpass⟩ := ht
    rw [List.mem_filter]
    refine ⟨proj_allAssignments K p.vars t htmem, ?_⟩
    rw [← htpass]
    apply all_congr_local
    intro r hr
    exact ruleHolds_proj K r t (hkept r hr)

theorem filter_idem_local {α : Type} (q : α → Bool) (l : List α) :
    (l.filter q).filter q = l.filter q := by
  induction l with
  | nil => rfl
  | cons x xs ih =>
      rw [List.filter_cons]
      by_cases hx : q x = true
      · rw [if_pos hx, List.filter_cons, if_pos hx, ih]
      · rw [if_neg hx, ih]

theorem insertNode_ne_nil (i : Nat) (t : ITree) : insertNode i t ≠ [] := by
  induction t with
  | leaf => simp [insertNode]
  | node j l r ihl ihr =>
      simp only [insertNode, ne_eq, List.append_eq_nil, List.map_eq_nil_iff, not_and]
      intro hl
      exact absurd hl ihl

theorem dedup_step_ne_nil (acc : List ITree) (t : ITree)
    (h : acc ≠ []) : (if t ∈ acc then acc else acc ++ [t]) ≠ [] := by
  by_cases ht : t ∈ acc
  · rw [if_pos ht]; exact h
  · rw [if_neg ht]; simp

theorem dedup_foldl_ne_nil :
    ∀ (l acc : List ITree), acc ≠ [] →
      l.foldl (fun acc t => if t ∈ acc then acc else acc ++ [t]) acc ≠ [] := by
  intro l
  induction l with
  | nil => intro acc h; exact h
  | cons x xs ih =>
      intro acc h
      rw [List.foldl_cons]
      exact ih _ (dedup_step_ne_nil acc x h)

theorem dedupList_ne_nil (l : List ITree) (h : l ≠ []) : dedupList l ≠ [] := by
  cases l with
  | nil => exact absurd rfl h
  | cons x xs =>
      rw [dedupList, List.foldl_cons]
      apply dedup_foldl_ne_nil
      simp

theorem genTrees_ne_nil (n : Nat) : genTrees n ≠ [] := by
  rw [genTrees]
  have key : ∀ (l : List Nat) (acc : List ITree), acc ≠ [] →
      l.foldl (fun ts i => dedupList ((ts.flatMap (insertNode i)).map ITree.norm)) acc ≠ [] := by
    intro l
    induction l with
    | nil => intro acc h; exact h
    | cons x xs ih =>
        intro acc h
        rw [List.foldl_cons]
        apply ih
        apply dedupList_ne_nil
        simp only [ne_eq, List.map_eq_nil_iff]
        cases acc with
        | nil => exact absurd rfl h
        | cons t ts =>
            rw [List.flatMap_cons]
            simp only [List.append_eq_nil, not_and]
            intro habs
            exact absurd habs (insertNode_ne_nil x t)
  exact key _ _ (by simp)

/-- C1: isobar topology generation succeeds for 2, 3, 4 and 5 final states
and returns exactly 1, 1, 2 and 5 structurally distinct topologies
respectively; every generated topology has exactly N final-state edges,
exactly one initial-state edge, and exactly N-1 nodes. -/
theorem isobar_topology_counts :
    (isoOk 2 = true ∧ (isoList 2).length = 1 ∧ ∀ t ∈ isoList 2, topologyOK 2 t) ∧
    (isoOk 3 = true ∧ (isoList 3).length = 1 ∧ ∀ t ∈ isoList 3, topologyOK 3 t) ∧
    (isoOk 4 = true ∧ (isoList 4).length = 2 ∧ ∀ t ∈ isoList 4, topologyOK 4 t) ∧
    (isoOk 5 = true ∧ (isoList 5).length = 5 ∧ ∀ t ∈ isoList 5, topologyOK 5 t) := by
  decide

/-- Witness for C2: the solver solution assigning 0 to the edge variable and
1 to the node variable is accepted by the example rule in strict mode. -/
theorem find_solutions_sound_witness :
    strictEval exRule [(exK0, 0), (exK1, 1)] = some true :=
  find_solutions_sound exProblem none (by decide) [(exK0, 0), (exK1, 1)] (by decide)
    exRule (by simp [exProblem])

/-- C3: solving is deterministic, two solves of an identical problem with an
identical budget produce identical results, solution order included. -/
theorem find_solutions_deterministic (p₁ p₂ : QNProblemSet) (b₁ b₂ : Option Nat)
    (hp : p₁ = p₂) (hb : b₁ = b₂) : find_solutions p₁ b₁ = find_solutions p₂ b₂ := by
  rw [hp, hb]

/-- Witness for C3 at the concrete example problem. -/
theorem find_solutions_deterministic_witness :
    find_solutions exProblem none = find_solutions exProblem none :=
  find_solutions_deterministic exProblem exProblem none none rfl rfl

/-- C4: permuting the order in which the bound rules are evaluated leaves the
solution sequence and the sequence of rejected candidate assignments
unchanged; only the reported first violating rule may differ. -/
theorem find_solutions_rule_order (p : QNProblemSet) (rules2 : List Rule)
    (b : Option Nat) (hperm : p.rules.Perm rules2) :
    (find_solutions p b).solutions =
      (find_solutions ⟨p.topology, p.vars, rules2⟩ b).solutions ∧
    (find_solutions p b).ledger.map (fun e => e.assignment) =
      (find_solutions ⟨p.topology, p.vars, rules2⟩ b).ledger.map
        (fun e => e.assignment) := by
  have h := search_perm p.rules rules2 hperm b p.vars [] ⟨[], [], 0, false⟩
    ⟨[], [], 0, false⟩ ⟨rfl, rfl, rfl, rfl⟩
  exact ⟨h.1, h.2.1⟩

/-- Witness for C4: transposing the two rules of the example problem. -/
theorem find_solutions_rule_order_witness :
    (find_solutions exProblem2 none).solutions =
      (find_solutions ⟨exProblem2.topology, exProblem2.vars,
        [exRuleB, exRule]⟩ none).solutions ∧
    (find_solutions exProblem2 none).ledger.map (fun e => e.assignment) =
      (find_solutions ⟨exProblem2.topology, exProblem2.vars,
        [exRuleB, exRule]⟩ none).ledger.map (fun e => e.assignment) :=
  find_solutions_rule_order exProblem2 [exRuleB, exRule] none
    (List.Perm.swap exRuleB exRule [])

/-- C5: the reduction utility is idempotent, reducing an already-reduced
problem with the same keep-sets returns an equal problem, and the reduced
problem keeps the topology, hence all edge and node ids, of the original. -/
theorem filter_qnps_idem (p : QNProblemSet) (K1 K2 R : List Nat) :
    filter_quantum_number_problem_set
        (filter_quantum_number_problem_set p K1 K2 R) K1 K2 R =
      filter_quantum_number_problem_set p K1 K2 R ∧
    (filter_quantum_number_problem_set p K1 K2 R).topology = p.topology := by
  constructor
  · simp only [filter_quantum_number_problem_set, filter_idem_local]
  · rfl

/-- Witness for C6: the projection relation at a concrete reduced solution. -/
theorem filter_consistent_witness :
    [(exK0, 0)] ∈ (find_solutions
        (filter_quantum_number_problem_set exProblem2 [0] [0] [8]) none).solutions ↔
      [(exK0, 0)] ∈ (find_solutions (restrictRules exProblem2 [8]) none).solutions.map
        (proj [0]) :=
  filter_consistent exProblem2 [0] [8] (by decide) (by decide) [(exK0, 0)]

/-- C7 as stated is false: a bounded solve of a rule-free problem truncates
with a strictly positive remaining search space while its rejection ledger is
empty, since no rule ever rejected a candidate. -/
theorem budget_empty_ledger_counterexample :
    1 < (find_solutions exNoRules none).iterations ∧
    (find_solutions exNoRules (some 1)).truncated = true ∧
    (find_solutions exNoRules (some 1)).solutions = [[(exK0, 0)]] ∧
    (find_solutions exNoRules (some 1)).ledger = [] := by
  decide

/-- C7 (amended): with an iteration budget smaller than the full search space
the solver returns normally with the truncation flag set to true, a
possibly-empty solution set, a possibly-empty rejection ledger, and performs
at most budget many search iterations. -/
theorem find_solutions_budget (p : QNProblemSet) (b : Nat)
    (hb : b < (find_solutions p none).iterations) :
    (find_solutions p (some b)).truncated = true ∧
    (find_solutions p (some b)).iterations ≤ b := by
  have hcap : (find_solutions p (some b)).iterations ≤ b :=
    search_iter_cap p.rules b p.vars [] ⟨[], [], 0, false⟩ (Nat.zero_le b)
  refine ⟨?_, hcap⟩
  cases htr : (find_solutions p (some b)).truncated with
  | true => rfl
  | false =>
      exfalso
      have heq : find_solutions p (some b) = find_solutions p none :=
        search_untrunc_eq p.rules b p.vars [] ⟨[], [], 0, false⟩ htr
      rw [heq] at hcap
      omega

/-- Witness for the amended C7 at the rule-free example problem. -/
theorem find_solutions_budget_witness :
    (find_solutions exNoRules (some 1)).truncated = true ∧
    (find_solutions exNoRules (some 1)).iterations ≤ 1 :=
  find_solutions_budget exNoRules 1 (by decide)

/-- C8: isobar generation with fewer than two final states fails with a
structural error, and with exactly two final states returns the single
trivial one-node topology, identical to the two-body n-body topology. -/
theorem isobar_edge_cases :
    create_isobar_topologies 0 = .error .structural ∧
    create_isobar_topologies 1 = .error .structural ∧
    create_isobar_topologies 2 = .ok [create_n_body_topology 2] :=
  ⟨rfl, rfl, rfl⟩

/-- C9: a successful isobar generation returns an ordered list whose element
0 is well defined, and the solutions of a solve form the ordered sequence
obtained by filtering the canonical deterministic enumeration of all full
assignments, hence are integer-indexable in a reproducible order. -/
theorem ordered_sequences :
    (∀ n ts, create_isobar_topologies n = .ok ts → ts[0]? ≠ none) ∧
    (∀ p : QNProblemSet, (find_solutions p none).solutions =
      (allAssignments p.vars).filter (fun a => p.rules.all (fun r => ruleHolds r a))) := by
  constructor
  · intro n ts hts
    rw [create_isobar_topologies] at hts
    by_cases hn : n < 2
    · rw [if_pos hn] at hts
      exact Except.noConfusion hts
    · rw [if_neg hn] at hts
      injection hts with h
      have hne : ts ≠ [] := by
        rw [← h]
        simp only [ne_eq, List.map_eq_nil_iff]
        exact genTrees_ne_nil n
      cases ts with
      | nil => exact absurd rfl hne
      | cons t ts2 => simp
  · intro p
    exact find_solutions_none_charact p

/-- Witness for C9: the first topology of the three-body generation exists. -/
theorem ordered_sequences_witness :
    ((create_isobar_topologies 3).toOption.getD [])[0]? ≠ none :=
  ordered_sequences.1 3 ((create_isobar_topologies 3).toOption.getD []) rfl

end QRules
